import Mathlib

/-!
Verification of the DWARF symbol-file resolution and caching engine
(`lldb/source/Plugins/SymbolFile/DWARF/SymbolFileDWARF.h`).

The header declares the engine's surface: the identifier codec
(`GetUID`/`DecodeUID`), the resolution caches (`ResolveType`,
`GetDIEToType`, the `DIE_IS_BEING_PARSED` placeholder), the unique-type
deduplication map (`UniqueDWARFASTTypeMap`), the global address-range
index (`GlobalVariableMap`, `GetGlobalAranges`) and the once-only lazy
section cache (`DWARFDataSegment`, `GetCachedSectionData`). Operations
whose bodies are not part of the available sources are modelled from the
specification, as marked on each definition.
-/

/-- `LLDB_INVALID_UID`: the distinguished invalid 64-bit user id
(`UINT64_MAX`). -/
def LLDB_INVALID_UID : Nat := 2 ^ 64 - 1

/-- `DW_INVALID_OFFSET`: the invalid 32-bit DIE offset (`UINT32_MAX`). -/
def DW_INVALID_OFFSET : Nat := 2 ^ 32 - 1

/-- Reserved unit-identity tag denoting a main-file (non-split) entry in
the encoded identifier space. -/
def MAIN_FILE_TAG : Nat := 0x7fffffff

/-- `DIERef`: the `EntryReference` of the spec — the cross-component
handle to a debug-info entry. `dwo_num` is the unit-identity tag
(`none` = main file, `some n` = split/package file number `n`), and
`die_offset` is the entry's byte offset. -/
structure DIERef where
  dwo_num : Option Nat
  die_offset : Nat
  deriving DecidableEq, Repr

/-- A `DIERef` the engine can actually encode: its offset fits in 32 bits
and is not the reserved invalid offset, and a split-file tag fits below
the reserved main-file tag. -/
def DIERef.Encodable (r : DIERef) : Prop :=
  r.die_offset < 2 ^ 32 ∧ r.die_offset ≠ DW_INVALID_OFFSET ∧
    ∀ n, r.dwo_num = some n → n < MAIN_FILE_TAG

instance (r : DIERef) : Decidable r.Encodable := by
  unfold DIERef.Encodable
  have : Decidable (∀ n, r.dwo_num = some n → n < MAIN_FILE_TAG) := by
    cases h : r.dwo_num with
    | none => exact .isTrue (by simp)
    | some n =>
        cases Nat.decLt n MAIN_FILE_TAG with
        | isTrue h2 => exact .isTrue (by simp [h2])
        | isFalse h2 => exact .isFalse (by simp [h2])
  exact instDecidableAnd

/-- Modelled from the spec: `GetUID(DIERef)` (declared at
`SymbolFileDWARF.h:272`, body not in the available sources).
`encode(EntryReference) -> id`: the opaque numeric identifier embeds the
unit-identity tag in the high 32 bits — a main-file entry carries the
reserved tag — and the entry's offset in the low 32 bits. -/
def GetUID (r : DIERef) : Nat :=
  (match r.dwo_num with
   | none => MAIN_FILE_TAG
   | some n => n) * 2 ^ 32 + r.die_offset

/-- `DecodedUID`: the result of decoding a user id — which engine owns
the entry (represented by its unit tag) and the entry reference. -/
structure DecodedUID where
  ref : DIERef
  deriving DecidableEq, Repr

/-- Modelled from the spec: `DecodeUID(user_id_t)` (declared at
`SymbolFileDWARF.h:445`, body not in the available sources).
`decode(id) -> EntryReference | InvalidIdentifier`: an id whose offset
field is the invalid offset decodes to nothing; otherwise the high bits
recover the unit-identity tag (the reserved tag mapping back to "main
file") and the low 32 bits recover the offset. -/
def DecodeUID (uid : Nat) : Option DecodedUID :=
  if uid % 2 ^ 32 = DW_INVALID_OFFSET then none
  else
    let tag := uid / 2 ^ 32
    some ⟨⟨if tag = MAIN_FILE_TAG then none else some tag, uid % 2 ^ 32⟩⟩

/-- The engine instance, for the purposes of identifier decoding and DIE
lookup: the collection of entry references it owns. -/
structure SymbolFileDWARF where
  dies : List DIERef
  deriving DecidableEq, Repr

/-- Modelled from the spec: `GetDIE(user_id_t)` (declared at
`SymbolFileDWARF.h:262`, body not in the available sources): decode the
id, then look the reference up among the engine's entries; a failed
decode or a reference the engine does not own yields an invalid (absent)
DIE. -/
def SymbolFileDWARF.GetDIE (s : SymbolFileDWARF) (uid : Nat) : Option DIERef :=
  match DecodeUID uid with
  | none => none
  | some d => if d.ref ∈ s.dies then some d.ref else none

/-- From `SymbolFileDWARF.h:268-270`: `GetUID(const llvm::Optional<DIERef> &ref)
{ return ref ? GetUID(*ref) : LLDB_INVALID_UID; }`. -/
def GetUIDFromOptional (ref : Option DIERef) : Nat :=
  match ref with
  | some r => GetUID r
  | none => LLDB_INVALID_UID

/-- From `SymbolFileDWARF.h:281`: for regular `SymbolFileDWARF` instances
`GetBaseCompileUnit` returns `nullptr` (only the subclass
`SymbolFileDWARFDwo` overrides it). -/
def SymbolFileDWARF.GetBaseCompileUnit (_s : SymbolFileDWARF) : Option Nat :=
  none

/-- From `SymbolFileDWARF.h:283`: for regular `SymbolFileDWARF` instances
`GetDwoNum` returns `llvm::None` (only split-file sub-engines carry a
backing-file number). -/
def SymbolFileDWARF.GetDwoNum (_s : SymbolFileDWARF) : Option Nat :=
  none

/-! ## Resolution cache (spec 4.5, `ResolveType` / `GetDIEToType` /
`DIE_IS_BEING_PARSED`) -/

/-- A constructed `Type` object in the engine's arena. `beingParsed` is
the `DIE_IS_BEING_PARSED` placeholder (`SymbolFileDWARF.h:57`);
`completed` records the identities of the member/referenced types. -/
inductive TypeObj where
  | beingParsed : TypeObj
  | completed (memberTypes : List Nat) : TypeObj
  deriving DecidableEq, Repr

/-- The resolution-cache state: the arena of constructed `Type` objects
(object identity = arena index) and the `m_die_to_type` cache mapping a
DIE (by offset) to the identity of its type. -/
structure ResolveState where
  arena : List TypeObj
  cache : List (Nat × Nat)
  deriving DecidableEq, Repr

/-- Association-list lookup used for the `m_die_to_type` cache. -/
def assocLookup : List (Nat × Nat) → Nat → Option Nat
  | [], _ => none
  | (k, v) :: rest, d => if k = d then some v else assocLookup rest d

/-- Modelled from the spec: the recursive core of `ResolveType` /
`ResolveTypeUID` (declared at `SymbolFileDWARF.h:130-132` and `355-358`,
bodies not in the available sources). Spec 4.5: check the cache by
entry reference; on a miss insert a being-resolved placeholder before
recursing into the referenced/member DIEs (`g d`), so a cyclic reference
reuses the placeholder; once construction completes, the placeholder is
completed in place, preserving object identity. `resolveMany` resolves a
worklist of DIEs left to right, threading the state; `fuel` bounds the
recursion depth. -/
def resolveMany (g : Nat → List Nat) :
    Nat → ResolveState → List Nat → Option (List Nat × ResolveState)
  | _, st, [] => some ([], st)
  | 0, _, _ :: _ => none
  | fuel + 1, st, d :: ds =>
    match assocLookup st.cache d with
    | some t =>
      match resolveMany g fuel st ds with
      | none => none
      | some (ts, st2) => some (t :: ts, st2)
    | none =>
      match resolveMany g fuel
          ⟨st.arena ++ [TypeObj.beingParsed],
           (d, st.arena.length) :: st.cache⟩ (g d) with
      | none => none
      | some (ts, st2) =>
        match resolveMany g fuel
            ⟨st2.arena.set st.arena.length (TypeObj.completed ts),
             st2.cache⟩ ds with
        | none => none
        | some (ts2, st3) => some (st.arena.length :: ts2, st3)

/-- Modelled from the spec: `resolveType(ref) -> Type` (spec 4.5),
returning the identity of the resolved type and the updated cache
state, or `none` when the fuel bound is exhausted. -/
def resolveType (g : Nat → List Nat) (fuel : Nat) (st : ResolveState)
    (d : Nat) : Option (Nat × ResolveState) :=
  match resolveMany g fuel st [d] with
  | some (t :: _, st1) => some (t, st1)
  | _ => none

/-- `st2` is a state obtained from `st1` by any (possibly empty) sequence
of later `resolveType` calls, by any caller. -/
inductive ResolvedFrom (g : Nat → List Nat) :
    ResolveState → ResolveState → Prop where
  | refl (st : ResolveState) : ResolvedFrom g st st
  | step {st st1 st2 : ResolveState} {fuel d t : Nat} :
      ResolvedFrom g st st1 → resolveType g fuel st1 d = some (t, st2) →
      ResolvedFrom g st st2

/-- Number of DIEs of the universe `U` not yet present in the cache:
the termination measure for resolution. -/
def uncachedCount (U : List Nat) (st : ResolveState) : Nat :=
  (U.filter (fun d => (assocLookup st.cache d).isNone)).length

/-- The cache of `st2` extends the cache of `st1`: every resolved entry
is still present, bound to the same type identity — "once created, never
replaced". -/
def CacheLE (st1 st2 : ResolveState) : Prop :=
  ∀ d t, assocLookup st1.cache d = some t → assocLookup st2.cache d = some t

/-! ## Unique-type deduplication (spec 4.6, `UniqueDWARFASTTypeMap`) -/

/-- An entry of the unique-type map: the identity of the canonical
`Type` for a key together with whether a full definition has been seen
(`false` = only a forward declaration so far). -/
structure UniqueDWARFASTType where
  type_id : Nat
  isCompleteDefinition : Bool
  deriving DecidableEq, Repr

/-- `UniqueTypeKey`: qualified name, defining language and byte size,
used to detect duplicate type definitions across compile units. -/
structure UniqueTypeKey where
  name : String
  language : Nat
  byte_size : Nat
  deriving DecidableEq, Repr

/-- `m_unique_ast_type_map` (`SymbolFileDWARF.h:482`), modelled as an
association list from keys to canonical entries. -/
def UniqueDWARFASTTypeMap : Type :=
  List (UniqueTypeKey × UniqueDWARFASTType)

/-- Lookup in the unique-type map. -/
def mapFind : UniqueDWARFASTTypeMap → UniqueTypeKey → Option UniqueDWARFASTType
  | [], _ => none
  | (k, v) :: rest, key => if k = key then some v else mapFind rest key

/-- Replace the entry of `key` in place, leaving every other binding
untouched. -/
def mapUpdate : UniqueDWARFASTTypeMap → UniqueTypeKey → UniqueDWARFASTType →
    UniqueDWARFASTTypeMap
  | [], _, _ => []
  | (k, v) :: rest, key, nv =>
    if k = key then (key, nv) :: rest else (k, v) :: mapUpdate rest key nv

/-- Modelled from the spec: `canonicalize(key, candidate) -> canonical`
(spec 4.6; the body of the `UniqueDWARFASTTypeMap` machinery behind
`GetUniqueDWARFASTTypeMap`, `SymbolFileDWARF.h:403`, is not in the
available sources). If `key` is already registered, return the existing
canonical type, upgrading it in place when the candidate is a full
definition and the registered entry was only a forward declaration;
otherwise register the candidate as canonical. -/
def canonicalize (m : UniqueDWARFASTTypeMap) (key : UniqueTypeKey)
    (cand : UniqueDWARFASTType) : Nat × UniqueDWARFASTTypeMap :=
  match mapFind m key with
  | some e =>
    if cand.isCompleteDefinition && !e.isCompleteDefinition then
      (e.type_id, mapUpdate m key ⟨e.type_id, true⟩)
    else
      (e.type_id, m)
  | none => (cand.type_id, (key, cand) :: m)

/-- Resolve a sequence of identically-keyed candidate definitions (one
per compile unit), collecting the canonical identity each resolution
returned. -/
def canonicalizeAll (m : UniqueDWARFASTTypeMap) (key : UniqueTypeKey) :
    List UniqueDWARFASTType → List Nat × UniqueDWARFASTTypeMap
  | [] => ([], m)
  | cand :: rest =>
    let (t, m1) := canonicalize m key cand
    let (ts, m2) := canonicalizeAll m1 key rest
    (t :: ts, m2)

/-- Number of bindings a key has in the map. -/
def keyCount (m : UniqueDWARFASTTypeMap) (key : UniqueTypeKey) : Nat :=
  (m.filter (fun p => p.1 = key)).length

/-! ## Global address-range index (spec 4.8, `GlobalVariableMap` /
`GetGlobalAranges`) -/

/-- One `GlobalRangeEntry`: a half-open address range
`[base, base + size)` and the identity of the entity occupying it. -/
structure RangeEntry where
  base : Nat
  size : Nat
  data : Nat
  deriving DecidableEq, Repr

/-- Whether an address lies in the entry's half-open range. -/
def RangeEntry.containsAddr (e : RangeEntry) (addr : Nat) : Bool :=
  decide (e.base ≤ addr) && decide (addr < e.base + e.size)

/-- The sorted, non-overlapping invariant of the index: every earlier
range ends at or before every later range begins. -/
def RangesSorted (entries : List RangeEntry) : Prop :=
  entries.Pairwise (fun a b => a.base + a.size ≤ b.base)

/-- Modelled from the spec: the binary search inside
`lookup(address) -> entity | none` (spec 4.8; the body of the
`RangeDataVector` behind `GetGlobalAranges`, `SymbolFileDWARF.h:418-422`,
is not in the available sources). Searches the index interval
`[lo, hi)`; `fuel` bounds the number of bisection steps. -/
def findEntryThatContains (entries : List RangeEntry) (addr : Nat) :
    Nat → Nat → Nat → Option RangeEntry
  | 0, _, _ => none
  | fuel + 1, lo, hi =>
    if lo < hi then
      match entries.get? ((lo + hi) / 2) with
      | none => none
      | some e =>
        if addr < e.base then
          findEntryThatContains entries addr fuel lo ((lo + hi) / 2)
        else if e.base + e.size ≤ addr then
          findEntryThatContains entries addr fuel ((lo + hi) / 2 + 1) hi
        else some e
    else none

/-- Modelled from the spec: `lookup(address) -> entity | none`
(spec 4.8): binary search over the whole sorted index. -/
def GlobalVariableMap.lookup (entries : List RangeEntry) (addr : Nat) :
    Option RangeEntry :=
  findEntryThatContains entries addr (entries.length + 1) 0 entries.length

/-! ## Lazy section cache (spec 4.1 and 5, `DWARFDataSegment` /
`GetCachedSectionData`) -/

/-- The state of a section's `llvm::once_flag` (`DWARFDataSegment.m_flag`,
`SymbolFileDWARF.h:311-314`): untouched, claimed by the thread performing
the load, or published with the loaded section data. -/
inductive OnceFlag where
  | idle : OnceFlag
  | running (tid : Nat) : OnceFlag
  | published (value : Nat) : OnceFlag
  deriving DecidableEq, Repr

/-- Where one caller of `GetCachedSectionData` stands: not yet entered,
performing the load itself, blocked waiting for publication, or done
with the section data it observed. -/
inductive ThreadPhase where
  | start : ThreadPhase
  | loading : ThreadPhase
  | waiting : ThreadPhase
  | finished (value : Nat) : ThreadPhase
  deriving DecidableEq, Repr

/-- Shared state of one `DWARFDataSegment` plus the phases of the callers:
the once-flag, the number of times `LoadSectionData` has run, and the
per-thread phases. -/
structure SectionSystem where
  flag : OnceFlag
  loadCount : Nat
  threads : List ThreadPhase
  deriving DecidableEq, Repr

/-- Modelled from the spec: the interleaving semantics of concurrent
`GetCachedSectionData` calls (declared at `SymbolFileDWARF.h:318-320`,
body not in the available sources; spec 4.1, 5 and the design note: a
compute-or-wait primitive — the first caller computes and publishes,
concurrent callers wait for publication, later callers read the
published value). `V` is the section data `LoadSectionData` produces. -/
inductive SectionStep (V : Nat) : SectionSystem → SectionSystem → Prop where
  | acquire (s : SectionSystem) (i : Nat) :
      s.threads.get? i = some ThreadPhase.start → s.flag = OnceFlag.idle →
      SectionStep V s
        ⟨OnceFlag.running i, s.loadCount, s.threads.set i ThreadPhase.loading⟩
  | publish (s : SectionSystem) (i : Nat) :
      s.threads.get? i = some ThreadPhase.loading →
      s.flag = OnceFlag.running i →
      SectionStep V s
        ⟨OnceFlag.published V, s.loadCount + 1,
          s.threads.set i (ThreadPhase.finished V)⟩
  | fastPath (s : SectionSystem) (i v : Nat) :
      s.threads.get? i = some ThreadPhase.start →
      s.flag = OnceFlag.published v →
      SectionStep V s
        ⟨s.flag, s.loadCount, s.threads.set i (ThreadPhase.finished v)⟩
  | contend (s : SectionSystem) (i j : Nat) :
      s.threads.get? i = some ThreadPhase.start →
      s.flag = OnceFlag.running j →
      SectionStep V s
        ⟨s.flag, s.loadCount, s.threads.set i ThreadPhase.waiting⟩
  | wake (s : SectionSystem) (i v : Nat) :
      s.threads.get? i = some ThreadPhase.waiting →
      s.flag = OnceFlag.published v →
      SectionStep V s
        ⟨s.flag, s.loadCount, s.threads.set i (ThreadPhase.finished v)⟩

/-- The states reachable from `n` callers all about to make their
first-time `GetCachedSectionData` call on an untouched segment. -/
inductive SectionReachable (V n : Nat) : SectionSystem → Prop where
  | init : SectionReachable V n
      ⟨OnceFlag.idle, 0, List.replicate n ThreadPhase.start⟩
  | step {s s1 : SectionSystem} : SectionReachable V n s →
      SectionStep V s s1 → SectionReachable V n s1

/-- The inductive invariant of the section system: before anyone arrives
nothing is loaded; while the flag is claimed exactly its claimant is
loading and no load has completed; once published, exactly one load has
happened and every caller that finished observed the published data. -/
def SectionInv (V : Nat) (s : SectionSystem) : Prop :=
  match s.flag with
  | OnceFlag.idle =>
      s.loadCount = 0 ∧ ∀ j p, s.threads.get? j = some p →
        p = ThreadPhase.start
  | OnceFlag.running i =>
      s.loadCount = 0 ∧ s.threads.get? i = some ThreadPhase.loading ∧
        ∀ j p, s.threads.get? j = some p →
          p = ThreadPhase.start ∨ p = ThreadPhase.waiting ∨
            (j = i ∧ p = ThreadPhase.loading)
  | OnceFlag.published v =>
      v = V ∧ s.loadCount = 1 ∧
        ∀ j p, s.threads.get? j = some p →
          p = ThreadPhase.start ∨ p = ThreadPhase.waiting ∨
            p = ThreadPhase.finished V

/-! ## Theorems: identifier codec -/

theorem getUID_mod (r : DIERef) (h : r.die_offset < 2 ^ 32) :
    GetUID r % 2 ^ 32 = r.die_offset := by
  unfold GetUID
  generalize (match r.dwo_num with
    | none => MAIN_FILE_TAG
    | some n => n) = T
  omega

theorem getUID_div (r : DIERef) (h : r.die_offset < 2 ^ 32) :
    GetUID r / 2 ^ 32 =
      (match r.dwo_num with
       | none => MAIN_FILE_TAG
       | some n => n) := by
  unfold GetUID
  generalize (match r.dwo_num with
    | none => MAIN_FILE_TAG
    | some n => n) = T
  omega

/-- C1: for every entry reference the engine can encode, decoding the
numeric identifier produced by `GetUID` gives back exactly that
reference, including the embedded unit-identity tag distinguishing
main-file from split/package-file entries. -/
theorem decode_encode_roundtrip (r : DIERef) (h : r.Encodable) :
    DecodeUID (GetUID r) = some ⟨r⟩ := by
  obtain ⟨dn, off⟩ := r
  obtain ⟨hlt, hne, htag⟩ := h
  unfold DecodeUID
  rw [getUID_mod ⟨dn, off⟩ hlt, getUID_div ⟨dn, off⟩ hlt, if_neg hne]
  cases dn with
  | none => simp
  | some n =>
      have hn : n ≠ MAIN_FILE_TAG := Nat.ne_of_lt (htag n rfl)
      simp [hn]

/-- C1 witness at a concrete split-file reference. -/
theorem decode_encode_roundtrip_witness :
    DIERef.Encodable ⟨some 5, 16⟩ ∧
      DecodeUID (GetUID ⟨some 5, 16⟩) = some ⟨⟨some 5, 16⟩⟩ :=
  ⟨by decide, decode_encode_roundtrip ⟨some 5, 16⟩ (by decide)⟩

theorem getUID_of_decoded {uid : Nat} {d : DecodedUID}
    (h : DecodeUID uid = some d) : GetUID d.ref = uid := by
  unfold DecodeUID at h
  by_cases hinv : uid % 2 ^ 32 = DW_INVALID_OFFSET
  · rw [if_pos hinv] at h
    exact absurd h (by simp)
  · rw [if_neg hinv] at h
    simp only [Option.some.injEq] at h
    subst h
    by_cases htag : uid / 2 ^ 32 = MAIN_FILE_TAG
    · rw [if_pos htag]
      show MAIN_FILE_TAG * 2 ^ 32 + uid % 2 ^ 32 = uid
      rw [← htag]
      omega
    · rw [if_neg htag]
      show uid / 2 ^ 32 * 2 ^ 32 + uid % 2 ^ 32 = uid
      omega

/-- C6: decoding an identifier this engine instance never produced is a
lookup failure returned as an absent value: `GetDIE` yields no DIE (and,
the model being a pure function of the engine, leaves every cache entry
untouched). -/
theorem getDIE_unknown_uid_fails (s : SymbolFileDWARF) (uid : Nat)
    (h : uid ∉ s.dies.map GetUID) : s.GetDIE uid = none := by
  unfold SymbolFileDWARF.GetDIE
  cases hd : DecodeUID uid with
  | none => rfl
  | some d =>
      have hmem : d.ref ∉ s.dies := by
        intro hin
        exact h (by
          rw [← getUID_of_decoded hd]
          exact List.mem_map_of_mem GetUID hin)
      simp [hmem]

/-- C6 witness: an id never produced by a one-entry engine decodes to a
failed lookup. -/
theorem getDIE_unknown_uid_fails_witness :
    (3 ∉ (SymbolFileDWARF.mk [⟨none, 5⟩]).dies.map GetUID) ∧
      (SymbolFileDWARF.mk [⟨none, 5⟩]).GetDIE 3 = none :=
  ⟨by decide, getDIE_unknown_uid_fails ⟨[⟨none, 5⟩]⟩ 3 (by decide)⟩

/-- C9: encoding an absent optional reference is total and yields the
distinguished invalid identifier `LLDB_INVALID_UID`
(`SymbolFileDWARF.h:268-270`). -/
theorem getUID_absent_ref_invalid :
    GetUIDFromOptional none = LLDB_INVALID_UID := rfl

/-- C10: every regular (non-split) `SymbolFileDWARF` instance reports no
base compile unit and no split-file number through the delegation
interface (`SymbolFileDWARF.h:281` and `:283`). -/
theorem base_instance_no_dwo (s : SymbolFileDWARF) :
    s.GetBaseCompileUnit = none ∧ s.GetDwoNum = none :=
  ⟨rfl, rfl⟩

/-! ## Theorems: resolution cache -/

theorem assocLookup_cons (k v d : Nat) (c : List (Nat × Nat)) :
    assocLookup ((k, v) :: c) d = if k = d then some v else assocLookup c d :=
  rfl

theorem cacheLE_insert {st : ResolveState} {d : Nat} (arena : List TypeObj)
    (t : Nat) (h : assocLookup st.cache d = none) :
    CacheLE st ⟨arena, (d, t) :: st.cache⟩ := by
  intro d2 t2 h2
  show assocLookup ((d, t) :: st.cache) d2 = some t2
  rw [assocLookup_cons]
  by_cases hd : d = d2
  · subst hd
    rw [h] at h2
    exact absurd h2 (by simp)
  · rw [if_neg hd]
    exact h2

theorem resolveMany_cacheLE (g : Nat → List Nat) :
    ∀ fuel st ds ts st2,
      resolveMany g fuel st ds = some (ts, st2) → CacheLE st st2 := by
  intro fuel
  induction fuel with
  | zero =>
      intro st ds ts st2 h
      cases ds with
      | nil =>
          simp only [resolveMany, Option.some.injEq, Prod.mk.injEq] at h
          rw [← h.2]
          exact fun _ _ hx => hx
      | cons d ds => simp [resolveMany] at h
  | succ fuel ih =>
      intro st ds ts st2 h
      cases ds with
      | nil =>
          simp only [resolveMany, Option.some.injEq, Prod.mk.injEq] at h
          rw [← h.2]
          exact fun _ _ hx => hx
      | cons d ds =>
          rw [resolveMany] at h
          split at h
          · rename_i t hc
            split at h
            · exact absurd h (by simp)
            · rename_i ts2 st3 hr
              simp only [Option.some.injEq, Prod.mk.injEq] at h
              rw [← h.2]
              exact ih _ _ _ _ hr
          · rename_i hc
            split at h
            · exact absurd h (by simp)
            · rename_i ts1 stA hr1
              split at h
              · exact absurd h (by simp)
              · rename_i ts2 st3 hr2
                simp only [Option.some.injEq, Prod.mk.injEq] at h
                rw [← h.2]
                have m1 : CacheLE st
                    ⟨st.arena ++ [TypeObj.beingParsed],
                     (d, st.arena.length) :: st.cache⟩ :=
                  cacheLE_insert _ _ hc
                intro d2 t2 h2
                exact ih _ _ _ _ hr2 d2 t2
                  (ih _ _ _ _ hr1 d2 t2 (m1 d2 t2 h2))

theorem resolveMany_head_cached (g : Nat → List Nat) :
    ∀ fuel st d ds ts st2,
      resolveMany g fuel st (d :: ds) = some (ts, st2) →
      ∃ t ts2, ts = t :: ts2 ∧ assocLookup st2.cache d = some t := by
  intro fuel st d ds ts st2 h
  cases fuel with
  | zero => simp [resolveMany] at h
  | succ fuel =>
      rw [resolveMany] at h
      split at h
      · rename_i t hc
        split at h
        · exact absurd h (by simp)
        · rename_i ts2 st3 hr
          simp only [Option.some.injEq, Prod.mk.injEq] at h
          refine ⟨t, ts2, h.1.symm, ?_⟩
          rw [← h.2]
          exact resolveMany_cacheLE g fuel st ds ts2 st3 hr d t hc
      · rename_i hc
        split at h
        · exact absurd h (by simp)
        · rename_i ts1 stA hr1
          split at h
          · exact absurd h (by simp)
          · rename_i ts2 st3 hr2
            simp only [Option.some.injEq, Prod.mk.injEq] at h
            refine ⟨st.arena.length, ts2, h.1.symm, ?_⟩
            have hin : assocLookup
                ((d, st.arena.length) :: st.cache) d =
                some st.arena.length := by
              rw [assocLookup_cons, if_pos rfl]
            have m2 := resolveMany_cacheLE g fuel _ _ _ _ hr1 d
              st.arena.length hin
            have m3 := resolveMany_cacheLE g fuel _ _ _ _ hr2 d
              st.arena.length m2
            rw [← h.2]
            exact m3

theorem resolveType_cache_hit {g : Nat → List Nat} {st : ResolveState}
    {d t : Nat} (fuel : Nat) (h : assocLookup st.cache d = some t) :
    resolveType g (fuel + 1) st d = some (t, st) := by
  simp [resolveType, resolveMany, h]

theorem resolveType_cacheLE {g : Nat → List Nat} {fuel : Nat}
    {st st1 : ResolveState} {d t : Nat}
    (h : resolveType g fuel st d = some (t, st1)) : CacheLE st st1 := by
  unfold resolveType at h
  cases hr : resolveMany g fuel st [d] with
  | none => rw [hr] at h; cases h
  | some p =>
      obtain ⟨ts, st2⟩ := p
      rw [hr] at h
      cases ts with
      | nil => cases h
      | cons t2 ts2 =>
          simp only [Option.some.injEq, Prod.mk.injEq] at h
          rw [← h.2]
          exact resolveMany_cacheLE g fuel st [d] (t2 :: ts2) st2 hr

theorem resolveType_resolved_cached {g : Nat → List Nat} {fuel : Nat}
    {st st1 : ResolveState} {d t : Nat}
    (h : resolveType g fuel st d = some (t, st1)) :
    assocLookup st1.cache d = some t := by
  unfold resolveType at h
  cases hr : resolveMany g fuel st [d] with
  | none => rw [hr] at h; cases h
  | some p =>
      obtain ⟨ts, st2⟩ := p
      rw [hr] at h
      cases ts with
      | nil => cases h
      | cons t2 ts2 =>
          simp only [Option.some.injEq, Prod.mk.injEq] at h
          obtain ⟨t3, ts3, he, hcached⟩ :=
            resolveMany_head_cached g fuel st d [] (t2 :: ts2) st2 hr
          rw [← h.2, ← h.1]
          cases he
          exact hcached

theorem resolvedFrom_cacheLE {g : Nat → List Nat} {st1 st2 : ResolveState}
    (h : ResolvedFrom g st1 st2) : CacheLE st1 st2 := by
  induction h with
  | refl => exact fun _ _ hx => hx
  | step hprev hres ih =>
      intro d t hx
      exact resolveType_cacheLE hres d t (ih d t hx)

/-- C2: type resolution is idempotent — once `resolveType` has resolved a
reference to a type identity, any later call with the same reference (at
any later cache state reached by further resolutions) returns the
identity-same cached type and leaves the state unchanged: the cache entry
is never replaced. -/
theorem resolveType_idempotent {g : Nat → List Nat} {fuel : Nat}
    {st st1 st2 : ResolveState} {r t : Nat}
    (h : resolveType g fuel st r = some (t, st1))
    (hlater : ResolvedFrom g st1 st2) (fuel2 : Nat) :
    resolveType g (fuel2 + 1) st2 r = some (t, st2) := by
  have h1 : assocLookup st1.cache r = some t := resolveType_resolved_cached h
  have h2 : assocLookup st2.cache r = some t := resolvedFrom_cacheLE hlater r t h1
  exact resolveType_cache_hit fuel2 h2

/-- C2 witness: a concrete resolution performed twice yields the same
type identity and an unchanged state the second time. -/
theorem resolveType_idempotent_witness :
    resolveType (fun _ => []) 3 ⟨[TypeObj.completed []], [(0, 0)]⟩ 0 =
      some (0, ⟨[TypeObj.completed []], [(0, 0)]⟩) :=
  resolveType_idempotent
    (show resolveType (fun _ => []) 2 ⟨[], []⟩ 0 =
        some (0, ⟨[TypeObj.completed []], [(0, 0)]⟩) by decide)
    (ResolvedFrom.refl _) 2

theorem filter_length_mono {α : Type} (p q : α → Bool) (U : List α)
    (h : ∀ x ∈ U, p x = true → q x = true) :
    (U.filter p).length ≤ (U.filter q).length := by
  induction U with
  | nil => simp
  | cons a U ih =>
      have ih2 := ih (fun x hx => h x (List.mem_cons_of_mem a hx))
      by_cases hp : p a = true
      · have hq := h a (List.mem_cons_self a U) hp
        simp only [List.filter_cons, hp, hq, if_true, List.length_cons]
        omega
      · have hp2 : p a = false := by revert hp; cases p a <;> simp
        by_cases hq : q a = true
        · simp only [List.filter_cons, hp2, hq, if_true, Bool.false_eq_true,
            if_false, List.length_cons]
          omega
        · have hq2 : q a = false := by revert hq; cases q a <;> simp
          simp only [List.filter_cons, hp2, hq2, Bool.false_eq_true, if_false]
          exact ih2

theorem filter_length_lt {α : Type} (p q : α → Bool) (U : List α)
    (h : ∀ x ∈ U, p x = true → q x = true) (d : α) (hd : d ∈ U)
    (hqd : q d = true) (hpd : p d = false) :
    (U.filter p).length < (U.filter q).length := by
  induction U with
  | nil => cases hd
  | cons a U ih =>
      have hrest : ∀ x ∈ U, p x = true → q x = true :=
        fun x hx => h x (List.mem_cons_of_mem a hx)
      rcases List.mem_cons.mp hd with rfl | hdU
      · have hmono := filter_length_mono p q U hrest
        simp only [List.filter_cons, hpd, hqd, if_true, Bool.false_eq_true,
          if_false, List.length_cons]
        omega
      · by_cases hp : p a = true
        · have hq := h a (List.mem_cons_self a U) hp
          have hlt := ih hrest hdU
          simp only [List.filter_cons, hp, hq, if_true, List.length_cons]
          omega
        · have hp2 : p a = false := by revert hp; cases p a <;> simp
          have hlt := ih hrest hdU
          by_cases hq : q a = true
          · simp only [List.filter_cons, hp2, hq, if_true, Bool.false_eq_true,
              if_false, List.length_cons]
            omega
          · have hq2 : q a = false := by revert hq; cases q a <;> simp
            simp only [List.filter_cons, hp2, hq2, Bool.false_eq_true, if_false]
            exact hlt

theorem uncachedCount_le_of_cacheLE {st1 st2 : ResolveState} (U : List Nat)
    (h : CacheLE st1 st2) : uncachedCount U st2 ≤ uncachedCount U st1 := by
  unfold uncachedCount
  apply filter_length_mono
  intro x _ hp
  cases hx : assocLookup st1.cache x with
  | none => simp
  | some t =>
      rw [h x t hx] at hp
      simp at hp

theorem uncachedCount_insert_lt (U : List Nat) (st : ResolveState) (d : Nat)
    (arena : List TypeObj) (t : Nat) (hd : d ∈ U)
    (hc : assocLookup st.cache d = none) :
    uncachedCount U ⟨arena, (d, t) :: st.cache⟩ < uncachedCount U st := by
  unfold uncachedCount
  apply filter_length_lt _ _ _ _ d hd
  · simp [hc]
  · show (assocLookup ((d, t) :: st.cache) d).isNone = false
    rw [assocLookup_cons, if_pos rfl]
    rfl
  · intro x _ hp
    cases hx : assocLookup st.cache x with
    | none => simp
    | some t2 =>
        have h2 := @cacheLE_insert st d arena t hc x t2 hx
        rw [show (ResolveState.mk arena ((d, t) :: st.cache)).cache =
          (d, t) :: st.cache from rfl] at h2
        rw [h2] at hp
        simp at hp

theorem resolveMany_fuel_mono (g : Nat → List Nat) :
    ∀ fuel st ds r, resolveMany g fuel st ds = some r →
      resolveMany g (fuel + 1) st ds = some r := by
  intro fuel
  induction fuel with
  | zero =>
      intro st ds r h
      cases ds with
      | nil => exact h
      | cons d ds => simp [resolveMany] at h
  | succ fuel ih =>
      intro st ds r h
      cases ds with
      | nil => exact h
      | cons d ds =>
          rw [resolveMany] at h
          rw [resolveMany]
          split at h
          · rename_i t hc
            split at h
            · exact absurd h (by simp)
            · rename_i ts2 st3 hr
              rw [ih _ _ _ hr]
              exact h
          · rename_i hc
            split at h
            · exact absurd h (by simp)
            · rename_i ts1 stA hr1
              split at h
              · exact absurd h (by simp)
              · rename_i ts2 st3 hr2
                simp only [ih _ _ _ hr1, ih _ _ _ hr2]
                exact h

theorem resolveMany_fuel_le (g : Nat → List Nat) {fuel fuel2 : Nat}
    {st : ResolveState} {ds : List Nat} {r : List Nat × ResolveState}
    (hle : fuel ≤ fuel2) (h : resolveMany g fuel st ds = some r) :
    resolveMany g fuel2 st ds = some r := by
  obtain ⟨k, rfl⟩ := Nat.exists_eq_add_of_le hle
  clear hle
  induction k with
  | zero => exact h
  | succ k ih => exact resolveMany_fuel_mono g (fuel + k) st ds r ih

theorem resolveMany_terminates (g : Nat → List Nat) (U : List Nat)
    (hU : ∀ d ∈ U, ∀ x ∈ g d, x ∈ U) :
    ∀ u st ds, uncachedCount U st ≤ u → (∀ x ∈ ds, x ∈ U) →
      ∃ fuel ts st2, resolveMany g fuel st ds = some (ts, st2) := by
  intro u
  induction u with
  | zero =>
      intro st ds h0
      induction ds with
      | nil => exact fun _ => ⟨1, [], st, rfl⟩
      | cons d ds ihds =>
          intro hds
          have hdU := hds d (List.mem_cons_self d ds)
          cases hc : assocLookup st.cache d with
          | none =>
              exfalso
              have hmem : d ∈ U.filter
                  (fun x => (assocLookup st.cache x).isNone) :=
                List.mem_filter.mpr ⟨hdU, by simp [hc]⟩
              have := List.length_pos_of_mem hmem
              have h0' : uncachedCount U st = 0 := Nat.le_zero.mp h0
              unfold uncachedCount at h0'
              omega
          | some t =>
              obtain ⟨f2, ts2, st3, hr⟩ :=
                ihds (fun x hx => hds x (List.mem_cons_of_mem d hx))
              exact ⟨f2 + 1, t :: ts2, st3, by rw [resolveMany, hc, hr]⟩
  | succ u ihu =>
      intro st ds hu
      induction ds with
      | nil => exact fun _ => ⟨1, [], st, rfl⟩
      | cons d ds ihds =>
          intro hds
          have hdU := hds d (List.mem_cons_self d ds)
          cases hc : assocLookup st.cache d with
          | some t =>
              obtain ⟨f2, ts2, st3, hr⟩ :=
                ihds (fun x hx => hds x (List.mem_cons_of_mem d hx))
              exact ⟨f2 + 1, t :: ts2, st3, by rw [resolveMany, hc, hr]⟩
          | none =>
              have h1 : uncachedCount U
                  ⟨st.arena ++ [TypeObj.beingParsed],
                   (d, st.arena.length) :: st.cache⟩ < uncachedCount U st :=
                uncachedCount_insert_lt U st d _ _ hdU hc
              obtain ⟨f1, ts1, stA, hr1⟩ :=
                ihu ⟨st.arena ++ [TypeObj.beingParsed],
                     (d, st.arena.length) :: st.cache⟩ (g d)
                  (by omega) (fun x hx => hU d hdU x hx)
              have hA : uncachedCount U stA ≤ u := by
                have hle2 := uncachedCount_le_of_cacheLE U
                  (resolveMany_cacheLE g f1 _ _ _ _ hr1)
                omega
              obtain ⟨f2, ts2, st3, hr2⟩ :=
                ihu ⟨stA.arena.set st.arena.length (TypeObj.completed ts1),
                     stA.cache⟩ ds hA
                  (fun x hx => hds x (List.mem_cons_of_mem d hx))
              refine ⟨max f1 f2 + 1, st.arena.length :: ts2, st3, ?_⟩
              have hr1' := resolveMany_fuel_le g (Nat.le_max_left f1 f2) hr1
              have hr2' := resolveMany_fuel_le g (Nat.le_max_right f1 f2) hr2
              simp only [resolveMany, hc, hr1', hr2']

theorem set_append_length (l : List TypeObj) (a b : TypeObj) :
    (l ++ [a]).set l.length b = l ++ [b] := by
  induction l with
  | nil => rfl
  | cons x xs ih =>
      show x :: ((xs ++ [a]).set xs.length b) = x :: (xs ++ [b])
      rw [ih]

/-- C3: for a universe of DIEs closed under references — including every
self-referential (cyclic) type — resolution terminates (some fuel makes
`resolveType` succeed), because the being-resolved placeholder is
inserted into the cache before recursing; and for a directly
self-referential DIE the cyclic reference reuses the placeholder, which
is then completed in place, so the member's resolved type is
identity-equal to the outer type. -/
theorem resolveType_cycle_safe (g : Nat → List Nat) (U : List Nat)
    (st : ResolveState) (die : Nat)
    (hU : ∀ d ∈ U, ∀ x ∈ g d, x ∈ U) (hdie : die ∈ U) :
    (∃ fuel t st2, resolveType g fuel st die = some (t, st2)) ∧
    (g die = [die] → assocLookup st.cache die = none → ∀ f,
      resolveType g (f + 2) st die =
        some (st.arena.length,
          ⟨st.arena ++ [TypeObj.completed [st.arena.length]],
           (die, st.arena.length) :: st.cache⟩)) := by
  constructor
  · obtain ⟨fuel, ts, st2, h⟩ :=
      resolveMany_terminates g U hU (uncachedCount U st) st [die]
        (Nat.le_refl _)
        (by intro x hx; rw [List.mem_singleton] at hx; rwa [hx])
    obtain ⟨t, ts2, rfl, _⟩ :=
      resolveMany_head_cached g fuel st die [] ts st2 h
    exact ⟨fuel, t, st2, by simp [resolveType, h]⟩
  · intro hself hmiss f
    have hhit : assocLookup ((die, st.arena.length) :: st.cache) die =
        some st.arena.length := by rw [assocLookup_cons, if_pos rfl]
    have hinner : resolveMany g (f + 1)
        ⟨st.arena ++ [TypeObj.beingParsed],
         (die, st.arena.length) :: st.cache⟩ [die] =
        some ([st.arena.length],
          ⟨st.arena ++ [TypeObj.beingParsed],
           (die, st.arena.length) :: st.cache⟩) := by
      simp only [resolveMany, hhit]
    have hstep : resolveMany g (f + 2) st [die] =
        some ([st.arena.length],
          ⟨st.arena ++ [TypeObj.completed [st.arena.length]],
           (die, st.arena.length) :: st.cache⟩) := by
      simp only [resolveMany, hmiss, hself, hinner]
      rw [set_append_length]
    simp [resolveType, hstep]

/-- C3 witness: a record whose single member refers back to the record
itself resolves with finite fuel, and the completed type's member list
holds the type's own identity. -/
theorem resolveType_cycle_safe_witness :
    (∃ fuel t st2,
        resolveType (fun _ => [0]) fuel ⟨[], []⟩ 0 = some (t, st2)) ∧
      resolveType (fun _ => [0]) 2 ⟨[], []⟩ 0 =
        some (0, ⟨[TypeObj.completed [0]], [(0, 0)]⟩) := by
  have h := resolveType_cycle_safe (fun _ => [0]) [0] ⟨[], []⟩ 0
    (by decide) (by decide)
  exact ⟨h.1, h.2 rfl rfl 0⟩

/-! ## Theorems: unique-type deduplication -/

theorem mapFind_mapUpdate (m : UniqueDWARFASTTypeMap) (key : UniqueTypeKey)
    (v : UniqueDWARFASTType) :
    mapFind (mapUpdate m key v) key = (mapFind m key).map (fun _ => v) := by
  induction m with
  | nil => rfl
  | cons p rest ih =>
      obtain ⟨k2, v2⟩ := p
      by_cases hk : k2 = key
      · subst hk
        simp [mapUpdate, mapFind]
      · simp [mapUpdate, mapFind, hk]
        exact ih

theorem keyCount_mapUpdate (m : UniqueDWARFASTTypeMap) (key : UniqueTypeKey)
    (v : UniqueDWARFASTType) (h : ∃ e, mapFind m key = some e) :
    keyCount (mapUpdate m key v) key = keyCount m key := by
  induction m with
  | nil => rfl
  | cons p rest ih =>
      obtain ⟨k2, v2⟩ := p
      by_cases hk : k2 = key
      · subst hk
        simp [mapUpdate, keyCount, List.filter_cons]
      · obtain ⟨e, he⟩ := h
        simp only [mapFind, if_neg hk] at he
        have hrec := ih ⟨e, he⟩
        unfold keyCount at hrec ⊢
        rw [mapUpdate, if_neg hk, List.filter_cons, if_neg (by simp [hk]),
          List.filter_cons, if_neg (by simp [hk])]
        exact hrec

theorem keyCount_of_find_none (m : UniqueDWARFASTTypeMap)
    (key : UniqueTypeKey) (h : mapFind m key = none) :
    keyCount m key = 0 := by
  induction m with
  | nil => rfl
  | cons p rest ih =>
      obtain ⟨k2, v2⟩ := p
      by_cases hk : k2 = key
      · subst hk
        simp [mapFind] at h
      · simp only [mapFind, if_neg hk] at h
        have hrec := ih h
        unfold keyCount at hrec ⊢
        rw [List.filter_cons, if_neg (by simp [hk])]
        exact hrec

theorem canonicalize_miss {m : UniqueDWARFASTTypeMap} {key : UniqueTypeKey}
    {cand : UniqueDWARFASTType} (h : mapFind m key = none) :
    canonicalize m key cand = (cand.type_id, (key, cand) :: m) := by
  simp [canonicalize, h]

theorem canonicalize_hit_fst {m : UniqueDWARFASTTypeMap} {key : UniqueTypeKey}
    {e : UniqueDWARFASTType} (cand : UniqueDWARFASTType)
    (h : mapFind m key = some e) :
    (canonicalize m key cand).1 = e.type_id := by
  simp only [canonicalize, h]
  split <;> rfl

theorem canonicalize_hit_snd {m : UniqueDWARFASTTypeMap} {key : UniqueTypeKey}
    {e : UniqueDWARFASTType} (cand : UniqueDWARFASTType)
    (h : mapFind m key = some e) :
    ∃ e2, mapFind (canonicalize m key cand).2 key = some e2 ∧
      e2.type_id = e.type_id ∧
      keyCount (canonicalize m key cand).2 key = keyCount m key := by
  simp only [canonicalize, h]
  split
  · refine ⟨⟨e.type_id, true⟩, ?_, rfl, ?_⟩
    · show mapFind (mapUpdate m key ⟨e.type_id, true⟩) key =
        some ⟨e.type_id, true⟩
      rw [mapFind_mapUpdate, h]
      rfl
    · show keyCount (mapUpdate m key ⟨e.type_id, true⟩) key = keyCount m key
      exact keyCount_mapUpdate m key _ ⟨e, h⟩
  · exact ⟨e, h, rfl, rfl⟩

theorem canonicalizeAll_stable (key : UniqueTypeKey) :
    ∀ (cands : List UniqueDWARFASTType) (m : UniqueDWARFASTTypeMap)
      (e : UniqueDWARFASTType), mapFind m key = some e →
      (∀ i ∈ (canonicalizeAll m key cands).1, i = e.type_id) ∧
      (∃ e2, mapFind (canonicalizeAll m key cands).2 key = some e2 ∧
        e2.type_id = e.type_id) ∧
      keyCount (canonicalizeAll m key cands).2 key = keyCount m key := by
  intro cands
  induction cands with
  | nil =>
      intro m e h
      exact ⟨by simp [canonicalizeAll], ⟨e, h, rfl⟩, rfl⟩
  | cons cand rest ih =>
      intro m e h
      rcases hcan : canonicalize m key cand with ⟨t1, m1⟩
      have hfst : t1 = e.type_id := by
        have := canonicalize_hit_fst cand h
        rw [hcan] at this
        exact this
      obtain ⟨e2, hfind2, hid2, hcount2⟩ := canonicalize_hit_snd cand h
      rw [hcan] at hfind2 hcount2
      obtain ⟨hall, ⟨e3, hfind3, hid3⟩, hcount3⟩ := ih m1 e2 hfind2
      refine ⟨?_, ⟨e3, ?_, by rw [hid3, hid2]⟩, ?_⟩
      · intro i hi
        simp only [canonicalizeAll, hcan] at hi
        rcases List.mem_cons.mp hi with rfl | hi2
        · exact hfst
        · exact (hall i hi2).trans hid2
      · simp only [canonicalizeAll, hcan]
        exact hfind3
      · simp only [canonicalizeAll, hcan]
        rw [hcount3, hcount2]

/-- C4: resolving any number of compile units that each contribute an
identically-keyed struct definition leaves exactly one canonical type
registered for that key, every resolution returns its identity, and the
map never binds the key to more than one canonical entry. -/
theorem canonicalize_one_canonical (m : UniqueDWARFASTTypeMap)
    (key : UniqueTypeKey) (c : UniqueDWARFASTType)
    (cands : List UniqueDWARFASTType) (hnone : mapFind m key = none) :
    (∀ i ∈ (canonicalizeAll m key (c :: cands)).1, i = c.type_id) ∧
    (∃ e, mapFind (canonicalizeAll m key (c :: cands)).2 key = some e ∧
      e.type_id = c.type_id) ∧
    keyCount (canonicalizeAll m key (c :: cands)).2 key = 1 := by
  have hcan : canonicalize m key c = (c.type_id, (key, c) :: m) :=
    canonicalize_miss hnone
  have hfind1 : mapFind ((key, c) :: m) key = some c := by
    simp [mapFind]
  obtain ⟨hall, ⟨e2, hfind2, hid2⟩, hcount2⟩ :=
    canonicalizeAll_stable key cands ((key, c) :: m) c hfind1
  have hcount1 : keyCount ((key, c) :: m) key = 1 := by
    have h0 := keyCount_of_find_none m key hnone
    unfold keyCount at h0 ⊢
    rw [List.filter_cons, if_pos (by simp)]
    simp [h0]
  refine ⟨?_, ⟨e2, ?_, hid2⟩, ?_⟩
  · intro i hi
    simp only [canonicalizeAll, hcan] at hi
    rcases List.mem_cons.mp hi with rfl | hi2
    · rfl
    · exact hall i hi2
  · simp only [canonicalizeAll, hcan]
    exact hfind2
  · simp only [canonicalizeAll, hcan]
    rw [hcount2, hcount1]

/-- C4 witness: two compile units each registering an identical named
struct collapse to one canonical type returned by both resolutions. -/
theorem canonicalize_one_canonical_witness :
    (∀ i ∈ (canonicalizeAll [] ⟨"S", 1, 8⟩
        [⟨7, true⟩, ⟨9, true⟩]).1, i = 7) ∧
    (∃ e, mapFind (canonicalizeAll [] ⟨"S", 1, 8⟩
        [⟨7, true⟩, ⟨9, true⟩]).2 ⟨"S", 1, 8⟩ = some e ∧ e.type_id = 7) ∧
    keyCount (canonicalizeAll [] ⟨"S", 1, 8⟩
        [⟨7, true⟩, ⟨9, true⟩]).2 ⟨"S", 1, 8⟩ = 1 :=
  canonicalize_one_canonical [] ⟨"S", 1, 8⟩ ⟨7, true⟩ [⟨9, true⟩] rfl

/-- C5: completing a forward-declared canonical type upgrades it in
place — the canonical identity is unchanged, the registered entry's
is-complete flag flips to true — and the flag transitions exactly once:
every later candidate for the key still returns the same identity and
leaves the entry complete. -/
theorem canonicalize_upgrade_in_place (m : UniqueDWARFASTTypeMap)
    (key : UniqueTypeKey) (t : Nat) (cand : UniqueDWARFASTType)
    (hreg : mapFind m key = some ⟨t, false⟩)
    (hfull : cand.isCompleteDefinition = true) :
    canonicalize m key cand = (t, mapUpdate m key ⟨t, true⟩) ∧
    mapFind (mapUpdate m key ⟨t, true⟩) key = some ⟨t, true⟩ ∧
    (∀ cand2, canonicalize (mapUpdate m key ⟨t, true⟩) key cand2 =
      (t, mapUpdate m key ⟨t, true⟩)) := by
  have hfind2 : mapFind (mapUpdate m key ⟨t, true⟩) key = some ⟨t, true⟩ := by
    rw [mapFind_mapUpdate, hreg]
    rfl
  refine ⟨?_, hfind2, ?_⟩
  · simp [canonicalize, hreg, hfull]
  · intro cand2
    simp [canonicalize, hfind2]

/-- C5 witness: a forward declaration completed by a later full
definition keeps identity `5`, its flag flips to true, and a further
candidate changes nothing. -/
theorem canonicalize_upgrade_in_place_witness :
    canonicalize [(⟨"S", 1, 8⟩, ⟨5, false⟩)] ⟨"S", 1, 8⟩ ⟨9, true⟩ =
      (5, mapUpdate [(⟨"S", 1, 8⟩, ⟨5, false⟩)] ⟨"S", 1, 8⟩ ⟨5, true⟩) ∧
    mapFind (mapUpdate [(⟨"S", 1, 8⟩, ⟨5, false⟩)] ⟨"S", 1, 8⟩ ⟨5, true⟩)
      ⟨"S", 1, 8⟩ = some ⟨5, true⟩ ∧
    (∀ cand2, canonicalize
      (mapUpdate [(⟨"S", 1, 8⟩, ⟨5, false⟩)] ⟨"S", 1, 8⟩ ⟨5, true⟩)
      ⟨"S", 1, 8⟩ cand2 =
      (5, mapUpdate [(⟨"S", 1, 8⟩, ⟨5, false⟩)] ⟨"S", 1, 8⟩ ⟨5, true⟩)) :=
  canonicalize_upgrade_in_place [(⟨"S", 1, 8⟩, ⟨5, false⟩)] ⟨"S", 1, 8⟩ 5
    ⟨9, true⟩ (by simp [mapFind]) rfl

/-! ## Theorems: global address-range index -/

theorem findEntry_sound (entries : List RangeEntry) (addr : Nat) :
    ∀ fuel lo hi e, findEntryThatContains entries addr fuel lo hi = some e →
      e ∈ entries ∧ e.containsAddr addr = true := by
  intro fuel
  induction fuel with
  | zero => intro lo hi e h; simp [findEntryThatContains] at h
  | succ fuel ih =>
      intro lo hi e h
      rw [findEntryThatContains] at h
      split at h
      · split at h
        · cases h
        · rename_i emid hget
          split at h
          · exact ih _ _ _ h
          · split at h
            · exact ih _ _ _ h
            · rename_i hb ha
              cases h
              refine ⟨List.get?_mem hget, ?_⟩
              simp only [RangeEntry.containsAddr, Bool.and_eq_true,
                decide_eq_true_eq]
              omega
      · cases h

theorem findEntry_complete (entries : List RangeEntry) (addr : Nat)
    (hs : ∀ i j ei ej, i < j → entries.get? i = some ei →
      entries.get? j = some ej → ei.base + ei.size ≤ ej.base) :
    ∀ fuel lo hi i e, entries.get? i = some e →
      e.containsAddr addr = true → lo ≤ i → i < hi →
      hi ≤ entries.length → hi - lo ≤ fuel →
      findEntryThatContains entries addr fuel lo hi = some e := by
  intro fuel
  induction fuel with
  | zero =>
      intro lo hi i e _ _ hlo hhi _ hfuel
      omega
  | succ fuel ih =>
      intro lo hi i e hget hcont hlo hhi hlen hfuel
      have hcont2 : e.base ≤ addr ∧ addr < e.base + e.size := by
        simpa only [RangeEntry.containsAddr, Bool.and_eq_true,
          decide_eq_true_eq] using hcont
      rw [findEntryThatContains, if_pos (show lo < hi by omega)]
      have hmidlt : (lo + hi) / 2 < entries.length := by omega
      have hmid : entries.get? ((lo + hi) / 2) =
          some (entries.get ⟨(lo + hi) / 2, hmidlt⟩) :=
        List.get?_eq_get hmidlt
      simp only [hmid]
      by_cases hb : addr < (entries.get ⟨(lo + hi) / 2, hmidlt⟩).base
      · rw [if_pos hb]
        have himid : i < (lo + hi) / 2 := by
          rcases Nat.lt_trichotomy i ((lo + hi) / 2) with hlt | heq | hgt
          · exact hlt
          · exfalso
            rw [heq, hmid] at hget
            injection hget with hE
            rw [hE] at hb
            omega
          · exfalso
            have := hs _ _ _ _ hgt hmid hget
            omega
        exact ih lo ((lo + hi) / 2) i e hget hcont hlo himid (by omega)
          (by omega)
      · rw [if_neg hb]
        by_cases ha : (entries.get ⟨(lo + hi) / 2, hmidlt⟩).base +
            (entries.get ⟨(lo + hi) / 2, hmidlt⟩).size ≤ addr
        · rw [if_pos ha]
          have himid : (lo + hi) / 2 < i := by
            rcases Nat.lt_trichotomy i ((lo + hi) / 2) with hlt | heq | hgt
            · exfalso
              have := hs _ _ _ _ hlt hget hmid
              omega
            · exfalso
              rw [heq, hmid] at hget
              injection hget with hE
              rw [hE] at ha
              omega
            · exact hgt
          exact ih ((lo + hi) / 2 + 1) hi i e hget hcont (by omega) hhi hlen
            (by omega)
        · rw [if_neg ha]
          have heq : i = (lo + hi) / 2 := by
            rcases Nat.lt_trichotomy i ((lo + hi) / 2) with hlt | heq | hgt
            · exfalso
              have := hs _ _ _ _ hlt hget hmid
              omega
            · exact heq
            · exfalso
              have := hs _ _ _ _ hgt hmid hget
              omega
          rw [heq, hmid] at hget
          exact hget

/-- C7: with the index sorted and non-overlapping, point lookup by
binary search is correct for every address: an address inside a stored
half-open range returns that range's entity, and an address covered by
no stored range returns none. -/
theorem globalAranges_lookup_correct (entries : List RangeEntry)
    (addr : Nat)
    (hs : ∀ i j ei ej, i < j → entries.get? i = some ei →
      entries.get? j = some ej → ei.base + ei.size ≤ ej.base) :
    (∀ i e, entries.get? i = some e → e.containsAddr addr = true →
      GlobalVariableMap.lookup entries addr = some e) ∧
    ((∀ e ∈ entries, e.containsAddr addr = false) →
      GlobalVariableMap.lookup entries addr = none) := by
  constructor
  · intro i e hget hcont
    have hilt : i < entries.length := (List.get?_eq_some.mp hget).1
    exact findEntry_complete entries addr hs (entries.length + 1) 0
      entries.length i e hget hcont (Nat.zero_le _) hilt (Nat.le_refl _)
      (by omega)
  · intro hnone
    cases hl : GlobalVariableMap.lookup entries addr with
    | none => rfl
    | some e =>
        unfold GlobalVariableMap.lookup at hl
        obtain ⟨hmem, hcont⟩ := findEntry_sound entries addr _ _ _ _ hl
        rw [hnone e hmem] at hcont
        cases hcont

/-- C7 witness: with ranges `[0x100,0x200) -> 1` and `[0x200,0x300) -> 2`,
lookup finds entity 1 at 0x150, entity 2 at 0x250, and nothing at 0x50. -/
theorem globalAranges_lookup_correct_witness :
    GlobalVariableMap.lookup [⟨0x100, 0x100, 1⟩, ⟨0x200, 0x100, 2⟩] 0x150 =
      some ⟨0x100, 0x100, 1⟩ ∧
    GlobalVariableMap.lookup [⟨0x100, 0x100, 1⟩, ⟨0x200, 0x100, 2⟩] 0x250 =
      some ⟨0x200, 0x100, 2⟩ ∧
    GlobalVariableMap.lookup [⟨0x100, 0x100, 1⟩, ⟨0x200, 0x100, 2⟩] 0x50 =
      none := by
  have hs : ∀ i j ei ej, i < j →
      ([⟨0x100, 0x100, 1⟩, ⟨0x200, 0x100, 2⟩] : List RangeEntry).get? i =
        some ei →
      ([⟨0x100, 0x100, 1⟩, ⟨0x200, 0x100, 2⟩] : List RangeEntry).get? j =
        some ej → ei.base + ei.size ≤ ej.base := by
    intro i j ei ej hij hi hj
    have hjlt : j < 2 := (List.get?_eq_some.mp hj).1
    have hi0 : i = 0 := by omega
    have hj1 : j = 1 := by omega
    subst hi0
    subst hj1
    injection hi with hi2
    injection hj with hj2
    rw [← hi2, ← hj2]
    decide
  refine ⟨?_, ?_, ?_⟩
  · exact (globalAranges_lookup_correct _ 0x150 hs).1 0 _ rfl (by decide)
  · exact (globalAranges_lookup_correct _ 0x250 hs).1 1 _ rfl (by decide)
  · exact (globalAranges_lookup_correct _ 0x50 hs).2 (by decide)

/-! ## Theorems: lazy section cache -/

theorem listGetSet_self {α : Type} :
    ∀ (l : List α) (i : Nat) (a : α), i < l.length →
      (l.set i a).get? i = some a := by
  intro l
  induction l with
  | nil => intro i a h; simp at h
  | cons x xs ih =>
      intro i a h
      cases i with
      | zero => rfl
      | succ i =>
          show (xs.set i a).get? i = some a
          exact ih i a (by simpa using h)

theorem listGetSet_other {α : Type} :
    ∀ (l : List α) (i j : Nat) (a : α), i ≠ j →
      (l.set i a).get? j = l.get? j := by
  intro l
  induction l with
  | nil => intro i j a _; rfl
  | cons x xs ih =>
      intro i j a h
      cases i with
      | zero =>
          cases j with
          | zero => exact absurd rfl h
          | succ j => rfl
      | succ i =>
          cases j with
          | zero => rfl
          | succ j => exact ih i j a (by omega)

theorem sectionReachable_length {V n : Nat} {s : SectionSystem}
    (h : SectionReachable V n s) : s.threads.length = n := by
  induction h with
  | init => simp
  | step hprev hstep ih =>
      cases hstep <;> simpa [List.length_set] using ih

theorem sectionInv_step {V : Nat} {s s1 : SectionSystem}
    (hstep : SectionStep V s s1) (hinv : SectionInv V s) :
    SectionInv V s1 := by
  cases hstep with
  | acquire i hthread hflag =>
      unfold SectionInv at hinv ⊢
      rw [hflag] at hinv
      obtain ⟨hcount, hall⟩ := hinv
      have hlen : i < s.threads.length := (List.get?_eq_some.mp hthread).1
      refine ⟨hcount, listGetSet_self _ _ _ hlen, ?_⟩
      intro j p hjp
      by_cases hij : i = j
      · subst hij
        rw [listGetSet_self _ _ _ hlen] at hjp
        injection hjp with h2
        exact Or.inr (Or.inr ⟨rfl, h2.symm⟩)
      · rw [listGetSet_other _ _ _ _ hij] at hjp
        exact Or.inl (hall j p hjp)
  | publish i hthread hflag =>
      unfold SectionInv at hinv ⊢
      rw [hflag] at hinv
      obtain ⟨hcount, hload, hall⟩ := hinv
      have hlen : i < s.threads.length := (List.get?_eq_some.mp hthread).1
      refine ⟨rfl, by show s.loadCount + 1 = 1; omega, ?_⟩
      intro j p hjp
      by_cases hij : i = j
      · subst hij
        rw [show (SectionSystem.mk (OnceFlag.published V) (s.loadCount + 1)
            (s.threads.set i (ThreadPhase.finished V))).threads =
          s.threads.set i (ThreadPhase.finished V) from rfl,
          listGetSet_self _ _ _ hlen] at hjp
        injection hjp with h2
        exact Or.inr (Or.inr h2.symm)
      · rw [listGetSet_other _ _ _ _ hij] at hjp
        rcases hall j p hjp with h1 | h1 | ⟨hji, _⟩
        · exact Or.inl h1
        · exact Or.inr (Or.inl h1)
        · exact absurd hji.symm hij
  | fastPath i v hthread hflag =>
      unfold SectionInv at hinv ⊢
      rw [hflag] at hinv ⊢
      obtain ⟨hv, hcount, hall⟩ := hinv
      have hlen : i < s.threads.length := (List.get?_eq_some.mp hthread).1
      refine ⟨hv, hcount, ?_⟩
      intro j p hjp
      by_cases hij : i = j
      · subst hij
        rw [listGetSet_self _ _ _ hlen] at hjp
        injection hjp with h2
        rw [← h2, hv]
        exact Or.inr (Or.inr rfl)
      · rw [listGetSet_other _ _ _ _ hij] at hjp
        exact hall j p hjp
  | contend i j0 hthread hflag =>
      unfold SectionInv at hinv ⊢
      rw [hflag] at hinv ⊢
      obtain ⟨hcount, hload, hall⟩ := hinv
      have hlen : i < s.threads.length := (List.get?_eq_some.mp hthread).1
      have hij0 : i ≠ j0 := by
        intro he
        rw [he, hload] at hthread
        injection hthread with h2
        cases h2
      refine ⟨hcount, ?_, ?_⟩
      · show (s.threads.set i ThreadPhase.waiting).get? j0 =
          some ThreadPhase.loading
        rw [listGetSet_other _ _ _ _ hij0]
        exact hload
      · intro j p hjp
        by_cases hij : i = j
        · subst hij
          rw [listGetSet_self _ _ _ hlen] at hjp
          injection hjp with h2
          exact Or.inr (Or.inl h2.symm)
        · rw [listGetSet_other _ _ _ _ hij] at hjp
          exact hall j p hjp
  | wake i v hthread hflag =>
      unfold SectionInv at hinv ⊢
      rw [hflag] at hinv ⊢
      obtain ⟨hv, hcount, hall⟩ := hinv
      have hlen : i < s.threads.length := (List.get?_eq_some.mp hthread).1
      refine ⟨hv, hcount, ?_⟩
      intro j p hjp
      by_cases hij : i = j
      · subst hij
        rw [listGetSet_self _ _ _ hlen] at hjp
        injection hjp with h2
        rw [← h2, hv]
        exact Or.inr (Or.inr rfl)
      · rw [listGetSet_other _ _ _ _ hij] at hjp
        exact hall j p hjp

theorem sectionInv_reachable {V n : Nat} {s : SectionSystem}
    (h : SectionReachable V n s) : SectionInv V s := by
  induction h with
  | init =>
      unfold SectionInv
      refine ⟨rfl, ?_⟩
      intro j p hjp
      have := List.get?_mem hjp
      exact List.eq_of_mem_replicate this
  | step hprev hstep ih => exact sectionInv_step hstep ih

/-- C8: in every execution in which `n` callers (at least one) all
complete a first-time `GetCachedSectionData` call on one section,
exactly one underlying `LoadSectionData` has run, and every caller
observed the same published section data. -/
theorem getSection_once (V n : Nat) (s : SectionSystem)
    (hreach : SectionReachable V n s) (hn : 0 < n)
    (hdone : ∀ j p, s.threads.get? j = some p →
      ∃ v, p = ThreadPhase.finished v) :
    s.loadCount = 1 ∧
      ∀ j p, s.threads.get? j = some p → p = ThreadPhase.finished V := by
  have hinv : SectionInv V s := sectionInv_reachable hreach
  have hlen : s.threads.length = n := sectionReachable_length hreach
  have h0lt : 0 < s.threads.length := by omega
  have hp0 : s.threads.get? 0 = some (s.threads.get ⟨0, h0lt⟩) :=
    List.get?_eq_get h0lt
  obtain ⟨v0, hv0⟩ := hdone 0 _ hp0
  unfold SectionInv at hinv
  cases hflag : s.flag with
  | idle =>
      exfalso
      rw [hflag] at hinv
      have := hinv.2 0 _ hp0
      rw [this] at hv0
      cases hv0
  | running i =>
      exfalso
      rw [hflag] at hinv
      obtain ⟨v1, hv1⟩ := hdone i _ hinv.2.1
      cases hv1
  | published v =>
      rw [hflag] at hinv
      obtain ⟨hv, hcount, hall⟩ := hinv
      refine ⟨hcount, ?_⟩
      intro j p hjp
      obtain ⟨v2, hv2⟩ := hdone j p hjp
      rcases hall j p hjp with h1 | h1 | h1
      · rw [h1] at hv2; cases hv2
      · rw [h1] at hv2; cases hv2
      · exact h1

/-- C8 witness: two callers contend; the first acquires and publishes
(one load), the second waits and then reads the published data. -/
theorem getSection_once_witness :
    (SectionSystem.mk (OnceFlag.published 7) 1
      [ThreadPhase.finished 7, ThreadPhase.finished 7]).loadCount = 1 ∧
    ∀ j p, (SectionSystem.mk (OnceFlag.published 7) 1
        [ThreadPhase.finished 7, ThreadPhase.finished 7]).threads.get? j =
      some p → p = ThreadPhase.finished 7 := by
  have htrace : SectionReachable 7 2
      ⟨OnceFlag.published 7, 1,
       [ThreadPhase.finished 7, ThreadPhase.finished 7]⟩ :=
    SectionReachable.step
      (SectionReachable.step
        (SectionReachable.step
          (SectionReachable.step SectionReachable.init
            (SectionStep.acquire _ 0 rfl rfl))
          (SectionStep.contend _ 1 0 rfl rfl))
        (SectionStep.publish _ 0 rfl rfl))
      (SectionStep.wake _ 1 7 rfl rfl)
  refine getSection_once 7 2 _ htrace (by omega) ?_
  intro j p h
  match j, h with
  | 0, h =>
      exact ⟨7, by injection h with h2; rw [← h2]⟩
  | 1, h =>
      exact ⟨7, by injection h with h2; rw [← h2]⟩
